import Mathlib

/-!
Verification development for the photo-sorter repository (src/main.rs,
src/file.rs, src/cli.rs).

File names and delimiters are modelled at the byte level (`List Nat`,
each element a UTF-8 code unit), because the source manipulates Rust
strings by byte offset: `str::find` returns a byte offset and
`&org[prefix_index + 2 ..]` slices at a byte offset, panicking when the
offset is out of bounds or not a UTF-8 character boundary.  Fallible
operations return `Except`/`Option`; a `.error ()` of the slice models a
Rust panic.  EXIF extraction performs IO; its three observable outcomes
per file (open failure, parse failure, parsed container with an optional
DateTimeOriginal field) are reified in `ExifOutcome`, exactly the cases
distinguished by `sort_by_time` in src/main.rs lines 85-117 (duplicated
as `Ord for PhotoFile` in src/file.rs lines 114-148).
-/

deriving instance DecidableEq for Except

/-- Little-endian decimal digits of `n`, with explicit fuel so that the
recursion is structural.  `digitsLEAux n n` is the digit list of `n`
(empty for 0); fuel `n` always suffices since `n / 10 < n` for `n > 0`. -/
def digitsLEAux : Nat → Nat → List Nat
  | 0, _ => []
  | _, 0 => []
  | fuel + 1, n + 1 => (n + 1) % 10 :: digitsLEAux fuel ((n + 1) / 10)

/-- Bytes of the decimal representation of `n`, most significant first:
the model of Rust `num.to_string()` (byte of digit d is d + 48). -/
def natDigits (n : Nat) : List Nat :=
  if n = 0 then [48] else ((digitsLEAux n n).map (fun d => d + 48)).reverse

/-- Value of a little-endian decimal digit list. -/
def ofDigitsLE : List Nat → Nat
  | [] => 0
  | d :: ds => d + 10 * ofDigitsLE ds

/-- One step of reading a decimal number from its ASCII bytes. -/
def decStep (acc b : Nat) : Nat := acc * 10 + (b - 48)

/-- Read a most-significant-first ASCII digit string back as a number. -/
def decodeDecimal (s : List Nat) : Nat := s.foldl decStep 0

/-- Model of `create_prefix(num, len)` (src/main.rs lines 194-207 and
src/file.rs lines 156-164): the decimal representation of `num`,
left-padded with ASCII '0' (byte 48) to width `len`, or unpadded when the
natural representation is already longer than `len`. -/
def create_prefix (num len : Nat) : List Nat :=
  if len < (natDigits num).length then natDigits num
  else List.replicate (len - (natDigits num).length) 48 ++ natDigits num

/-- Model of `PhotoFile::create_prefixed_name(index, prefix_len, delim)`
(src/file.rs lines 42-51; inlined in `rename_file`/`test_rename_file`
of src/main.rs): `format!("{prefix}{delim}{org}")` with the 1-based
index rendered by `create_prefix`. -/
def create_prefixed_name (orig : List Nat) (index prefixLen : Nat) (delim : List Nat) : List Nat :=
  create_prefix (index + 1) prefixLen ++ (delim ++ orig)

/-- Whether a byte is a UTF-8 continuation byte (0x80..0xBF).  Rust's
`str::is_char_boundary` rejects slice offsets landing on such a byte. -/
def isUtf8Cont (b : Nat) : Bool := decide (128 ≤ b ∧ b < 192)

/-- Model of Rust `str::is_char_boundary`: true at 0 and at the total
byte length, false beyond the length or on a continuation byte. -/
def isCharBoundary (s : List Nat) (i : Nat) : Bool :=
  if i = 0 then true
  else if i < s.length then ! isUtf8Cont (s.getD i 0)
  else decide (i = s.length)

/-- Model of the Rust slice `&s[i..]`: `.error ()` models the panic on an
out-of-bounds or non-boundary byte offset. -/
def sliceFrom (s : List Nat) (i : Nat) : Except Unit (List Nat) :=
  if isCharBoundary s i then .ok (s.drop i) else .error ()

/-- Model of Rust `str::find(&str)`: byte offset of the first occurrence
of `needle` as a contiguous byte substring. -/
def strFind (needle : List Nat) : List Nat → Option Nat
  | [] => if needle.isPrefixOf [] then some 0 else none
  | b :: t => if needle.isPrefixOf (b :: t) then some 0 else (strFind needle t).map (· + 1)

/-- Model of `PhotoFile::create_reverted_name(delim)` (src/file.rs lines
74-88; same logic inlined in `test_revert_file` and `revert_file` of
src/main.rs): find the first occurrence of `delim` in the current name,
then slice the name from that byte offset plus the fixed constant 2
(`&org[prefix_index + 2 ..]`).  `.ok none` is the "no match" outcome;
`.error ()` is the slice panic. -/
def create_reverted_name (name delim : List Nat) : Except Unit (Option (List Nat)) :=
  match strFind delim name with
  | none => .ok none
  | some p =>
    match sliceFrom name (p + 2) with
    | .error e => .error e
    | .ok s => .ok (some s)

/-- Observable per-file outcome of EXIF timestamp extraction, the three
cases distinguished by `sort_by_time` (src/main.rs lines 85-117):
the file failed to open, its container failed to parse, or it parsed
with an optional DateTimeOriginal display string (bytes). -/
inductive ExifOutcome
  | openFail
  | parseFail
  | parsed (timestamp : Option (List Nat))
deriving DecidableEq

/-- Byte-lexicographic comparison, the model of Rust `String::cmp`
applied to the timestamp display strings. -/
def bytesCmp : List Nat → List Nat → Ordering
  | [], [] => .eq
  | [], _ :: _ => .lt
  | _ :: _, [] => .gt
  | a :: as, b :: bs => if a < b then .lt else if b < a then .gt else bytesCmp as bs

/-- Comparison of the two optional DateTimeOriginal fields, the inner
match of `sort_by_time` (src/main.rs lines 103-111). -/
def timeCmp : Option (List Nat) → Option (List Nat) → Ordering
  | some a, some b => bytesCmp a b
  | some _, none => .lt
  | none, some _ => .gt
  | none, none => .eq

/-- Model of `sort_by_time` (src/main.rs lines 85-117): if either file
fails to open, Equal; otherwise parse both containers: both parsed
compares the optional timestamp fields, exactly one parsed puts the
parsed file first, neither parsed is Equal. -/
def sort_by_time : ExifOutcome → ExifOutcome → Ordering
  | .openFail, _ => .eq
  | _, .openFail => .eq
  | .parsed t1, .parsed t2 => timeCmp t1 t2
  | .parsed _, .parseFail => .lt
  | .parseFail, .parsed _ => .gt
  | .parseFail, .parseFail => .eq

/-- A directory entry as the sort sees it: its path bytes and the
outcome its EXIF extraction would produce. -/
abbrev PFile := List Nat × ExifOutcome

/-- The comparator passed to `files.sort_by(sort_by_time)`. -/
def photo_cmp (a b : PFile) : Ordering := sort_by_time a.2 b.2

/-- Stable insertion of `a` into an already sorted list: `a` passes over
`b` only when strictly greater, so earlier-listed ties stay first. -/
def insertSorted {α : Type} (cmp : α → α → Ordering) (a : α) : List α → List α
  | [] => [a]
  | b :: l => if cmp a b = .gt then b :: insertSorted cmp a l else a :: b :: l

/-- Stable sort (model of Rust `slice::sort_by`, which is stable). -/
def stableSort {α : Type} (cmp : α → α → Ordering) : List α → List α
  | [] => []
  | a :: l => insertSorted cmp a (stableSort cmp l)

/-- Model of the sequencing in `main` (src/main.rs lines 19-24): sort
ascending with the chronological comparator, then reverse the whole
sequence when descending mode is requested. -/
def orderFiles (files : List PFile) (desc : Bool) : List PFile :=
  if desc then (stableSort photo_cmp files).reverse else stableSort photo_cmp files

/-- Observable effects of one `revert_file` call: whether a filesystem
rename was issued (and to what name), whether the "Not processed" skip
message was printed, and whether the call returned `Ok`. -/
structure RevertOutcome where
  renamedTo : Option (List Nat)
  notProcessedMsg : Bool
  success : Bool
deriving DecidableEq

/-- Model of `revert_file` (src/main.rs lines 164-187): no delimiter
occurrence prints "Not processed" and returns `Ok` without touching the
file; otherwise the name is sliced at the first occurrence plus 2
(panicking like the source when the slice is invalid) and a filesystem
rename is issued whose success is the environment bit `fsOk`. -/
def revert_file (name delim : List Nat) (fsOk : Bool) : Except Unit RevertOutcome :=
  match strFind delim name with
  | none => .ok ⟨none, true, true⟩
  | some p =>
    match sliceFrom name (p + 2) with
    | .error e => .error e
    | .ok newName => .ok ⟨some newName, false, fsOk⟩

/-- Model of `rename_file` (src/main.rs lines 128-148): compute the
prefixed name and issue the filesystem rename; on failure return an
error carrying the original path (the payload of
`anyhow!("Failed to rename file {}", file.to_string_lossy())`). -/
def rename_file (name : List Nat) (index prefixLen : Nat) (delim : List Nat) (fsOk : Bool) : Except (List Nat) (List Nat) :=
  if fsOk then .ok (create_prefixed_name name index prefixLen delim) else .error name

/-- Model of the rename loop of `main` (src/main.rs lines 44-50):
process every file in order with its enumeration index starting at
`idx`; the first component collects each per-file result, the second the
error-stream lines (the paths carried by failed renames), and a failure
never stops the remaining files from being processed. -/
def renameBatchAux (plen : Nat) (delim : List Nat) (fsOk : Nat → Bool) : List (List Nat) → Nat → List (Except (List Nat) (List Nat)) × List (List Nat)
  | [], _ => ([], [])
  | f :: rest, idx =>
    (rename_file f idx plen delim (fsOk idx) :: (renameBatchAux plen delim fsOk rest (idx + 1)).1,
     match rename_file f idx plen delim (fsOk idx) with
     | .error e => e :: (renameBatchAux plen delim fsOk rest (idx + 1)).2
     | .ok _ => (renameBatchAux plen delim fsOk rest (idx + 1)).2)

/-! ### Helper lemmas about lists and byte strings -/

theorem drop_append_small (l1 l2 : List Nat) : ∀ q, q ≤ l1.length → (l1 ++ l2).drop q = l1.drop q ++ l2 := by
  induction l1 with
  | nil =>
    intro q hq
    have hq0 : q = 0 := Nat.le_zero.mp hq
    subst hq0
    simp
  | cons a t ih =>
    intro q hq
    cases q with
    | zero => simp
    | succ q =>
      simp only [List.cons_append, List.drop_succ_cons]
      exact ih q (by simpa using hq)

theorem drop_append_len (A l : List Nat) : (A ++ l).drop A.length = l := by
  induction A with
  | nil => rfl
  | cons a t ih => simp

theorem getD_append_len (A l : List Nat) (d : Nat) : (A ++ l).getD A.length d = l.getD 0 d := by
  induction A with
  | nil => rfl
  | cons a t ih => simpa using ih

theorem isPrefixOf_append_self (l r : List Nat) : l.isPrefixOf (l ++ r) = true := by
  induction l with
  | nil => simp
  | cons a t ih => simp [List.cons_append, List.isPrefixOf_cons₂, ih]

theorem prefix2_iff (d0 d1 : Nat) (l : List Nat) :
    [d0, d1].isPrefixOf l = true ↔ ∃ t, l = d0 :: d1 :: t := by
  cases l with
  | nil => simp
  | cons x xs =>
    cases xs with
    | nil => simp [List.isPrefixOf_cons₂]
    | cons y ys =>
      constructor
      · intro h
        simp only [List.isPrefixOf_cons₂, List.isPrefixOf_nil_left, Bool.and_eq_true,
          beq_iff_eq, and_true] at h
        exact ⟨ys, by rw [h.1, h.2]⟩
      · rintro ⟨t, ht⟩
        simp only [List.cons.injEq] at ht
        obtain ⟨h0, h1, h2⟩ := ht
        subst h0; subst h1; subst h2
        simp [List.isPrefixOf_cons₂]

theorem strFind_here (needle hay : List Nat) (h : needle.isPrefixOf hay = true) :
    strFind needle hay = some 0 := by
  cases hay with
  | nil => simp [strFind, h]
  | cons b t => simp [strFind, h]

theorem strFind_first_at (needle rest : List Nat) :
    ∀ pre : List Nat,
      (∀ q, q < pre.length → ¬ needle.isPrefixOf ((pre ++ (needle ++ rest)).drop q) = true) →
      strFind needle (pre ++ (needle ++ rest)) = some pre.length := by
  intro pre
  induction pre with
  | nil =>
    intro _
    simpa using strFind_here needle (needle ++ rest) (isPrefixOf_append_self needle rest)
  | cons b pre ih =>
    intro hno
    have h0 : ¬ needle.isPrefixOf ((b :: pre) ++ (needle ++ rest)) = true := by
      simpa using hno 0 (by simp)
    rw [List.cons_append]
    rw [show strFind needle (b :: (pre ++ (needle ++ rest)))
          = if needle.isPrefixOf (b :: (pre ++ (needle ++ rest))) then some 0
            else (strFind needle (pre ++ (needle ++ rest))).map (· + 1) from rfl]
    rw [if_neg (by simpa using h0)]
    rw [ih (fun q hq => by simpa [List.drop_succ_cons] using hno (q + 1) (by simpa using hq))]
    simp

/-! ### Helper lemmas about decimal digits -/

theorem digitsLEAux_lt : ∀ fuel n d, d ∈ digitsLEAux fuel n → d < 10 := by
  intro fuel
  induction fuel with
  | zero => intro n d h; simp [digitsLEAux] at h
  | succ fuel ih =>
    intro n d h
    cases n with
    | zero => simp [digitsLEAux] at h
    | succ m =>
      rw [show digitsLEAux (fuel + 1) (m + 1) = (m + 1) % 10 :: digitsLEAux fuel ((m + 1) / 10) from rfl] at h
      rcases List.mem_cons.mp h with h1 | h2
      · subst h1; exact Nat.mod_lt _ (by omega)
      · exact ih _ _ h2

theorem digitsLEAux_val : ∀ fuel n, n ≤ fuel → ofDigitsLE (digitsLEAux fuel n) = n := by
  intro fuel
  induction fuel with
  | zero =>
    intro n hn
    have h0 : n = 0 := by omega
    subst h0; rfl
  | succ fuel ih =>
    intro n hn
    cases n with
    | zero => rfl
    | succ m =>
      rw [show digitsLEAux (fuel + 1) (m + 1) = (m + 1) % 10 :: digitsLEAux fuel ((m + 1) / 10) from rfl]
      rw [show ofDigitsLE ((m + 1) % 10 :: digitsLEAux fuel ((m + 1) / 10))
            = (m + 1) % 10 + 10 * ofDigitsLE (digitsLEAux fuel ((m + 1) / 10)) from rfl]
      rw [ih ((m + 1) / 10) (by
        have h1 : (m + 1) / 10 < m + 1 := Nat.div_lt_self (by omega) (by omega)
        omega)]
      exact Nat.mod_add_div (m + 1) 10

theorem natDigits_digit (n b : Nat) (h : b ∈ natDigits n) : 48 ≤ b ∧ b ≤ 57 := by
  by_cases h0 : n = 0
  · subst h0
    simp [natDigits] at h
    omega
  · rw [natDigits, if_neg h0] at h
    rw [List.mem_reverse] at h
    rcases List.mem_map.mp h with ⟨d, hd, rfl⟩
    have := digitsLEAux_lt n n d hd
    omega

theorem create_prefix_digits (n w b : Nat) (h : b ∈ create_prefix n w) : 48 ≤ b ∧ b ≤ 57 := by
  rw [ create_prefix] at h
  by_cases hw : w < (natDigits n).length
  · rw [if_pos hw] at h
    exact natDigits_digit n b h
  · rw [if_neg hw] at h
    rcases List.mem_append.mp h with h1 | h1
    · have := List.eq_of_mem_replicate h1
      omega
    · exact natDigits_digit n b h1

theorem foldl_zeros : ∀ k, List.foldl decStep 0 (List.replicate k 48) = 0 := by
  intro k
  induction k with
  | zero => rfl
  | succ k ih => simpa [List.replicate_succ, decStep] using ih

theorem decode_rev_map : ∀ (L : List Nat) (acc : Nat),
    List.foldl decStep acc ((L.map (fun d => d + 48)).reverse) = acc * 10 ^ L.length + ofDigitsLE L := by
  intro L
  induction L with
  | nil => intro acc; simp [ofDigitsLE]
  | cons x xs ih =>
    intro acc
    simp only [List.map_cons, List.reverse_cons, List.foldl_append, List.foldl_cons, List.foldl_nil]
    rw [ih]
    rw [show decStep (acc * 10 ^ xs.length + ofDigitsLE xs) (x + 48)
          = (acc * 10 ^ xs.length + ofDigitsLE xs) * 10 + (x + 48 - 48) from rfl]
    rw [show ofDigitsLE (x :: xs) = x + 10 * ofDigitsLE xs from rfl]
    have hx : x + 48 - 48 = x := by omega
    rw [hx, List.length_cons, pow_succ]
    ring

theorem decode_natDigits (n : Nat) : decodeDecimal (natDigits n) = n := by
  by_cases h0 : n = 0
  · subst h0; rfl
  · rw [natDigits, if_neg h0, decodeDecimal, decode_rev_map]
    rw [digitsLEAux_val n n (Nat.le_refl n)]
    simp

/-! ### Helper lemmas about the comparator -/

theorem bytesCmp_eq_iff : ∀ a b : List Nat, bytesCmp a b = .eq ↔ a = b := by
  intro a
  induction a with
  | nil => intro b; cases b <;> simp [bytesCmp]
  | cons x xs ih =>
    intro b
    cases b with
    | nil => simp [bytesCmp]
    | cons y ys =>
      simp only [bytesCmp, List.cons.injEq]
      by_cases hxy : x < y
      · rw [if_pos hxy]
        refine iff_of_false (by simp) ?_
        rintro ⟨h1, _⟩; omega
      · by_cases hyx : y < x
        · rw [if_neg hxy, if_pos hyx]
          refine iff_of_false (by simp) ?_
          rintro ⟨h1, _⟩; omega
        · have hxy2 : x = y := by omega
          rw [if_neg hxy, if_neg hyx, ih ys]
          constructor
          · intro h; exact ⟨hxy2, h⟩
          · rintro ⟨_, h⟩; exact h

theorem bytesCmp_lt_trans : ∀ a b c : List Nat,
    bytesCmp a b = .lt → bytesCmp b c = .lt → bytesCmp a c = .lt := by
  intro a
  induction a with
  | nil =>
    intro b c h1 h2
    cases b with
    | nil => simp [bytesCmp] at h1
    | cons y ys =>
      cases c with
      | nil => simp [bytesCmp] at h2
      | cons z zs => simp [bytesCmp]
  | cons x xs ih =>
    intro b c h1 h2
    cases b with
    | nil => simp [bytesCmp] at h1
    | cons y ys =>
      cases c with
      | nil => simp [bytesCmp] at h2
      | cons z zs =>
        simp only [bytesCmp] at h1 h2 ⊢
        by_cases hxy : x < y
        · by_cases hyz : y < z
          · rw [if_pos (by omega)]
          · rw [if_neg hyz] at h2
            by_cases hzy : z < y
            · rw [if_pos hzy] at h2; simp at h2
            · have hyz2 : y = z := by omega
              subst hyz2
              rw [if_pos hxy]
        · rw [if_neg hxy] at h1
          by_cases hyx : y < x
          · rw [if_pos hyx] at h1; simp at h1
          · have hxy2 : x = y := by omega
            subst hxy2
            by_cases hxz : x < z
            · rw [if_pos hxz]
            · rw [if_neg hxz] at h2 ⊢
              by_cases hzx : z < x
              · rw [if_pos hzx] at h2; simp at h2
              · rw [if_neg hzx] at h2 ⊢
                rw [if_neg hxy] at h1
                exact ih ys zs h1 h2

theorem timeCmp_eq_iff : ∀ t1 t2 : Option (List Nat), timeCmp t1 t2 = .eq ↔ t1 = t2 := by
  intro t1 t2
  cases t1 <;> cases t2 <;> simp [timeCmp, bytesCmp_eq_iff]

theorem timeCmp_lt_trans : ∀ t1 t2 t3 : Option (List Nat),
    timeCmp t1 t2 = .lt → timeCmp t2 t3 = .lt → timeCmp t1 t3 = .lt := by
  intro t1 t2 t3 h1 h2
  cases t1 <;> cases t2 <;> cases t3 <;> simp_all [timeCmp]
  exact bytesCmp_lt_trans _ _ _ h1 h2

/-- Core of the round-trip argument: reverting `pad ++ delim ++ orig`
recovers `orig` whenever every byte of `pad` is an ASCII digit, the two
bytes of the delimiter are not both ASCII digits, and `orig` does not
begin with a UTF-8 continuation byte (true of every Rust string).  An
occurrence of the delimiter before the end of the numeric prefix would
put its first byte on a pad digit and its second byte on either another
pad digit or on the delimiter's own first byte, forcing both delimiter
bytes to be digits. -/
theorem revert_roundtrip_aux (pad orig : List Nat) (d0 d1 : Nat)
    (hpad : ∀ b ∈ pad, 48 ≤ b ∧ b ≤ 57)
    (hd : d0 < 48 ∨ 57 < d0 ∨ d1 < 48 ∨ 57 < d1)
    (ho : isUtf8Cont (orig.headD 0) = false) :
    create_reverted_name (pad ++ ([d0, d1] ++ orig)) [d0, d1] = .ok (some orig) := by
  have hno : ∀ q, q < pad.length →
      ¬ [d0, d1].isPrefixOf ((pad ++ ([d0, d1] ++ orig)).drop q) = true := by
    intro q hq hcon
    rw [drop_append_small pad ([d0, d1] ++ orig) q (Nat.le_of_lt hq)] at hcon
    have hne : pad.drop q ≠ [] := by
      intro hnil
      have hqn := congrArg List.length hnil
      simp [List.length_drop] at hqn
      omega
    obtain ⟨b, t, hbt⟩ := List.exists_cons_of_ne_nil hne
    rw [hbt, List.cons_append, prefix2_iff] at hcon
    obtain ⟨t2, ht2⟩ := hcon
    injection ht2 with hb htail
    have hmem : b ∈ pad := List.drop_subset q pad (by rw [hbt]; exact List.mem_cons_self b t)
    have hdig0 := hpad b hmem
    cases t with
    | nil =>
      rw [List.nil_append] at htail
      injection htail with h01 _
      omega
    | cons b2 t' =>
      rw [List.cons_append] at htail
      injection htail with hb2 _
      have hmem2 : b2 ∈ pad := List.drop_subset q pad (by
        rw [hbt]; exact List.mem_cons_of_mem b (List.mem_cons_self b2 t'))
      have hdig1 := hpad b2 hmem2
      omega
  have hfind : strFind [d0, d1] (pad ++ ([d0, d1] ++ orig)) = some pad.length :=
    strFind_first_at [d0, d1] orig pad hno
  have hassoc : pad ++ ([d0, d1] ++ orig) = (pad ++ [d0, d1]) ++ orig :=
    (List.append_assoc pad [d0, d1] orig).symm
  have hlen2 : (pad ++ [d0, d1]).length = pad.length + 2 := by simp
  have hbound : isCharBoundary (pad ++ ([d0, d1] ++ orig)) (pad.length + 2) = true := by
    cases orig with
    | nil =>
      have hlen : (pad ++ ([d0, d1] ++ ([] : List Nat))).length = pad.length + 2 := by simp
      rw [isCharBoundary, if_neg (by omega), hlen, if_neg (by omega)]
      simp
    | cons h t =>
      have hlt : pad.length + 2 < (pad ++ ([d0, d1] ++ (h :: t))).length := by simp
      rw [isCharBoundary, if_neg (by omega), if_pos hlt]
      have hget : (pad ++ ([d0, d1] ++ (h :: t))).getD (pad.length + 2) 0 = h := by
        rw [hassoc, ← hlen2, getD_append_len]
        rfl
      rw [hget]
      have ho2 : isUtf8Cont h = false := by simpa using ho
      rw [ho2]
      rfl
  have hdrop : (pad ++ ([d0, d1] ++ orig)).drop (pad.length + 2) = orig := by
    rw [hassoc, ← hlen2, drop_append_len]
  simp only [create_reverted_name, hfind, sliceFrom, hbound, if_true, hdrop]

/-! ### The claims -/

/-- Claim C1, counterexample: with the all-digit 2-byte delimiter "11"
(bytes 49 49), original name "a.jpg", index 0 and shared width 1, the
prefixed name is "111a.jpg"; the first occurrence of the delimiter is at
byte 0 (inside the numeric prefix), so reverting yields "1a.jpg", not
"a.jpg".  The round-trip therefore fails for some delimiters of length
exactly 2. -/
theorem c1_cex :
    create_reverted_name (create_prefixed_name [97, 46, 106, 112, 103] 0 1 [49, 49]) [49, 49] =
      .ok (some [49, 97, 46, 106, 112, 103]) ∧
    [49, 97, 46, 106, 112, 103] ≠ [97, 46, 106, 112, 103] := by decide

/-- Claim C1, amended: the round-trip `revert (rename orig index width d)
= orig` holds for every original name, index and shared width whenever
the delimiter has length exactly 2 and its two bytes are not both ASCII
digits (and the original name, being a Rust string, does not start with
a UTF-8 continuation byte).  This is the exact boundary: the
counterexample needs an all-digit delimiter. -/
theorem c1_roundtrip (orig : List Nat) (index width d0 d1 : Nat)
    (hd : d0 < 48 ∨ 57 < d0 ∨ d1 < 48 ∨ 57 < d1)
    (ho : isUtf8Cont (orig.headD 0) = false) :
    create_reverted_name (create_prefixed_name orig index width [d0, d1]) [d0, d1] =
      .ok (some orig) := by
  rw [create_prefixed_name]
  exact revert_roundtrip_aux _ orig d0 d1
    (fun b hb => create_prefix_digits (index + 1) width b hb) hd ho

/-- Claim C1, witness: the amended round-trip at orig "a.jpg", index 0,
width 1 with the default delimiter "__" (bytes 95 95), and at orig
"b.jpg" with the digit-first delimiter "1a" (bytes 49 97), exercising a
delimiter that does begin with an ASCII digit. -/
theorem c1_roundtrip_witness :
    create_reverted_name (create_prefixed_name [97, 46, 106, 112, 103] 0 1 [95, 95]) [95, 95] =
      .ok (some [97, 46, 106, 112, 103]) ∧
    create_reverted_name (create_prefixed_name [98, 46, 106, 112, 103] 0 1 [49, 97]) [49, 97] =
      .ok (some [98, 46, 106, 112, 103]) :=
  ⟨c1_roundtrip [97, 46, 106, 112, 103] 0 1 95 95 (by decide) (by decide),
   c1_roundtrip [98, 46, 106, 112, 103] 0 1 49 97 (by decide) (by decide)⟩

/-- Claim C2: when the delimiter first occurs at byte offset p and the
slice at the fixed offset p + 2 is valid, the reverted name is exactly
the byte substring of the current name starting at p + 2 (independent of
the delimiter's length); when the delimiter does not occur, the
operation returns no match (`none`). -/
theorem c2_revert_offset :
    (∀ (name delim : List Nat) (p : Nat), strFind delim name = some p →
        isCharBoundary name (p + 2) = true →
        create_reverted_name name delim = .ok (some (name.drop (p + 2)))) ∧
    (∀ name delim : List Nat, strFind delim name = none →
        create_reverted_name name delim = .ok none) := by
  constructor
  · intro name delim p hf hb
    simp only [create_reverted_name, hf, sliceFrom, hb, if_true]
  · intro name delim hf
    simp only [create_reverted_name, hf]

/-- Claim C2, witness: reverting "1__a" (bytes 49 95 95 97) with
delimiter "__" found at offset 1 drops 3 bytes, yielding "a"; reverting
"a.jpg" with "__" yields no match. -/
theorem c2_revert_offset_witness :
    create_reverted_name [49, 95, 95, 97] [95, 95] = .ok (some [97]) ∧
    create_reverted_name [97, 46, 106, 112, 103] [95, 95] = .ok none := by
  constructor
  · have h := c2_revert_offset.1 [49, 95, 95, 97] [95, 95] 1 (by decide) (by decide)
    have hd : List.drop (1 + 2) [49, 95, 95, 97] = [97] := rfl
    rw [hd] at h
    exact h
  · exact c2_revert_offset.2 [97, 46, 106, 112, 103] [95, 95] (by decide)

/-- Claim C3, counterexample: a file that opens and parses but has no
DateTimeOriginal tag, compared against a file whose container fails to
parse, yields Less, not Equal — although "either file's metadata
container could not be parsed" holds. -/
theorem c3_cex :
    sort_by_time (ExifOutcome.parsed none) ExifOutcome.parseFail = Ordering.lt ∧
    sort_by_time (ExifOutcome.parsed none) ExifOutcome.parseFail ≠ Ordering.eq := by decide

/-- Claim C3, amended: the comparator returns Equal when either file
fails to open, when both parse and neither carries the timestamp tag, or
when both containers fail to parse; a one-sided parse failure instead
orders the parsed file first. -/
theorem c3_amended : ∀ o1 o2 : ExifOutcome,
    (o1 = .openFail ∨ o2 = .openFail ∨ (o1 = .parsed none ∧ o2 = .parsed none) ∨
      (o1 = .parseFail ∧ o2 = .parseFail)) →
    sort_by_time o1 o2 = .eq := by
  intro o1 o2 h
  rcases h with h | h | ⟨h1, h2⟩ | ⟨h1, h2⟩
  · subst h; cases o2 <;> rfl
  · subst h; cases o1 <;> rfl
  · subst h1; subst h2; rfl
  · subst h1; subst h2; rfl

/-- Claim C3, witness: an unopenable file compares Equal to a parsed
file without a timestamp. -/
theorem c3_amended_witness :
    sort_by_time ExifOutcome.openFail (ExifOutcome.parsed none) = Ordering.eq :=
  c3_amended _ _ (Or.inl rfl)

/-- Claim C4, counterexample: two files with distinct timestamps each
compare Equal to an unopenable file, yet compare Less to each other, so
Equal is not transitive and the comparator is not a strict weak ordering
over all outcome assignments. -/
theorem c4_cex :
    sort_by_time (ExifOutcome.parsed (some [49])) ExifOutcome.openFail = Ordering.eq ∧
    sort_by_time ExifOutcome.openFail (ExifOutcome.parsed (some [50])) = Ordering.eq ∧
    sort_by_time (ExifOutcome.parsed (some [49])) (ExifOutcome.parsed (some [50])) ≠
      Ordering.eq := by decide

/-- Claim C4, amended: Less is transitive for every outcome assignment,
and Equal is transitive (so the comparator is a strict weak ordering)
provided no compared file has an open failure. -/
theorem c4_amended :
    (∀ a b c : ExifOutcome,
      sort_by_time a b = .lt → sort_by_time b c = .lt → sort_by_time a c = .lt) ∧
    (∀ a b c : ExifOutcome, a ≠ .openFail → b ≠ .openFail → c ≠ .openFail →
      sort_by_time a b = .eq → sort_by_time b c = .eq → sort_by_time a c = .eq) := by
  constructor
  · intro a b c h1 h2
    cases a <;> cases b <;> cases c <;> simp_all [sort_by_time]
    exact timeCmp_lt_trans _ _ _ h1 h2
  · intro a b c ha hb hc h1 h2
    cases a <;> cases b <;> cases c <;> simp_all [sort_by_time, timeCmp_eq_iff]

/-- Claim C4, witness: Less-transitivity at three timestamped files and
Equal-transitivity at three parse-failed files. -/
theorem c4_amended_witness :
    sort_by_time (ExifOutcome.parsed (some [49])) (ExifOutcome.parsed (some [51])) = Ordering.lt ∧
    sort_by_time ExifOutcome.parseFail ExifOutcome.parseFail = Ordering.eq :=
  ⟨c4_amended.1 (.parsed (some [49])) (.parsed (some [50])) (.parsed (some [51]))
      (by decide) (by decide),
   c4_amended.2 .parseFail .parseFail .parseFail
      (by decide) (by decide) (by decide) (by decide) (by decide)⟩

/-- Claim C5, counterexample: a parsed file without a timestamp compared
to a file with a timestamp yields Greater, not Less — the file without
the timestamp sorts after, not before. -/
theorem c5_cex :
    sort_by_time (ExifOutcome.parsed none) (ExifOutcome.parsed (some [49])) = Ordering.gt ∧
    sort_by_time (ExifOutcome.parsed none) (ExifOutcome.parsed (some [49])) ≠ Ordering.lt := by
  decide

/-- Claim C5, amended: whenever a file with a readable timestamp is
compared directly to an openable file without one (tag absent or
container unparsable), the file WITH the timestamp compares Less (sorts
first) and the file without it compares Greater. -/
theorem c5_amended : ∀ (t : List Nat) (o : ExifOutcome),
    (o = .parsed none ∨ o = .parseFail) →
    sort_by_time (.parsed (some t)) o = .lt ∧ sort_by_time o (.parsed (some t)) = .gt := by
  intro t o h
  rcases h with h | h <;> subst h <;> exact ⟨rfl, rfl⟩

/-- Claim C5, witness: the amended ordering at a concrete timestamp
against a parsed file without the tag. -/
theorem c5_amended_witness :
    sort_by_time (ExifOutcome.parsed (some [49])) (ExifOutcome.parsed none) = Ordering.lt ∧
    sort_by_time (ExifOutcome.parsed none) (ExifOutcome.parsed (some [49])) = Ordering.gt :=
  c5_amended [49] (.parsed none) (Or.inl rfl)

/-- Claim C6: for n at least 1 the rendered prefix is n's decimal digits
left-padded with ASCII '0' to the requested width when they fit (total
length exactly the width), the natural unpadded representation when they
do not (never truncated: decoding the result always gives n back), and
the three concrete examples pad(10,3)="010", pad(5,3)="005",
pad(100,2)="100" hold. -/
theorem c6_pad (n w : Nat) (_hn : 1 ≤ n) :
    ((natDigits n).length ≤ w →
      create_prefix n w = List.replicate (w - (natDigits n).length) 48 ++ natDigits n ∧
      ( create_prefix n w).length = w) ∧
    (w < (natDigits n).length → create_prefix n w = natDigits n) ∧
    decodeDecimal ( create_prefix n w) = n ∧
    create_prefix 10 3 = [48, 49, 48] ∧
    create_prefix 5 3 = [48, 48, 53] ∧
    create_prefix 100 2 = [49, 48, 48] := by
  refine ⟨?_, ?_, ?_, by decide, by decide, by decide⟩
  · intro hle
    rw [ create_prefix, if_neg (by omega)]
    refine ⟨rfl, ?_⟩
    simp only [List.length_append, List.length_replicate]
    omega
  · intro hlt
    rw [ create_prefix, if_pos hlt]
  · by_cases hw : w < (natDigits n).length
    · rw [ create_prefix, if_pos hw, decode_natDigits]
    · rw [ create_prefix, if_neg hw, decodeDecimal, List.foldl_append, foldl_zeros]
      exact decode_natDigits n

/-- Claim C6, witness: the padded prefix for 10 at width 3 and its
decoded value. -/
theorem c6_pad_witness :
    create_prefix 10 3 = [48, 49, 48] ∧ decodeDecimal ( create_prefix 10 3) = 10 :=
  ⟨(c6_pad 10 3 (by decide)).2.2.2.1, (c6_pad 10 3 (by decide)).2.2.1⟩

/-- Claim C7: descending mode is exactly the reverse of the whole
ascending stable-sorted sequence, and this differs from re-sorting with
the inverted comparator — on two tied files the reversed sort swaps the
block while the inverted-comparator sort keeps listing order. -/
theorem c7_desc_reverse :
    (∀ files : List PFile, orderFiles files true = (orderFiles files false).reverse) ∧
    orderFiles [([65], ExifOutcome.parsed none), ([66], ExifOutcome.parsed none)] true ≠
      stableSort (fun a b => photo_cmp b a)
        [([65], ExifOutcome.parsed none), ([66], ExifOutcome.parsed none)] := by
  constructor
  · intro files; rfl
  · decide

/-- Claim C8: when the delimiter does not occur in the file name,
`revert_file` issues no filesystem rename, prints the "Not processed"
skip message, and returns success, for every state of the filesystem. -/
theorem c8_revert_skip (name delim : List Nat) (fsOk : Bool)
    (h : strFind delim name = none) :
    revert_file name delim fsOk = .ok ⟨none, true, true⟩ := by
  simp only [revert_file, h]

/-- Claim C8, witness: reverting "a.jpg" with delimiter "__" is a
reported, successful no-op. -/
theorem c8_revert_skip_witness :
    revert_file [97, 46, 106, 112, 103] [95, 95] true = .ok ⟨none, true, true⟩ :=
  c8_revert_skip [97, 46, 106, 112, 103] [95, 95] true (by decide)

/-- Claim C9: the rename loop processes every file of the batch (one
result per file, failures never abort the run), and every file whose
filesystem rename fails contributes an error carrying its original path,
which appears on the error stream. -/
theorem c9_rename_continues (files : List (List Nat)) (plen : Nat) (delim : List Nat)
    (fsOk : Nat → Bool) : ∀ idx : Nat,
    (renameBatchAux plen delim fsOk files idx).1.length = files.length ∧
    (∀ i, i < files.length → fsOk (idx + i) = false →
      (renameBatchAux plen delim fsOk files idx).1.getD i (Except.ok []) =
        Except.error (files.getD i []) ∧
      files.getD i [] ∈ (renameBatchAux plen delim fsOk files idx).2) := by
  induction files with
  | nil =>
    intro idx
    exact ⟨rfl, by intro i hi; simp at hi⟩
  | cons f rest ih =>
    intro idx
    constructor
    · simpa [renameBatchAux] using (ih (idx + 1)).1
    · intro i hi hf
      cases i with
      | zero =>
        have hfx : fsOk idx = false := by simpa using hf
        have hr : rename_file f idx plen delim (fsOk idx) = Except.error f := by
          rw [rename_file, hfx]; rfl
        constructor
        · simp [renameBatchAux, hr]
        · simp [renameBatchAux, hr]
      | succ i =>
        have hf2 : fsOk ((idx + 1) + i) = false := by
          have hx : (idx + 1) + i = idx + (i + 1) := by omega
          rw [hx]; exact hf
        have hi2 : i < rest.length := by simpa using hi
        obtain ⟨h1, h2⟩ := (ih (idx + 1)).2 i hi2 hf2
        constructor
        · simpa [renameBatchAux] using h1
        · simp only [renameBatchAux, List.getD_cons_succ]
          cases hrf : rename_file f idx plen delim (fsOk idx) with
          | error e => exact List.mem_cons_of_mem e h2
          | ok v => exact h2

/-- Claim C9, witness: a two-file batch whose first rename fails still
processes both files, the failure carries the first file's path, and
that path is on the error stream. -/
theorem c9_rename_continues_witness :
    (renameBatchAux 1 [95, 95] (fun i => decide (i ≠ 0)) [[97], [98]] 0).1.length = 2 ∧
    (renameBatchAux 1 [95, 95] (fun i => decide (i ≠ 0)) [[97], [98]] 0).1.getD 0 (Except.ok []) =
      Except.error [97] ∧
    [97] ∈ (renameBatchAux 1 [95, 95] (fun i => decide (i ≠ 0)) [[97], [98]] 0).2 := by
  obtain ⟨hlen, hall⟩ := c9_rename_continues [[97], [98]] 1 [95, 95] (fun i => decide (i ≠ 0)) 0
  obtain ⟨h1, h2⟩ := hall 0 (by decide) (by decide)
  exact ⟨hlen, by simpa using h1, by simpa using h2⟩

/-- Claim C10: the revert transform's panic branch is reachable: with
the one-byte delimiter "_" on the name "a_" the slice start 3 exceeds
the 2-byte length, and on the name "_é" (bytes 95 195 169) the slice
start 2 lands inside the two-byte UTF-8 character, so both inputs hit
the failure branch and revert is not total over non-empty delimiters. -/
theorem c10_revert_panics :
    create_reverted_name [97, 95] [95] = .error () ∧
    create_reverted_name [95, 195, 169] [95] = .error () := by decide
